import Mathlib

/-!
Verification of the numeric primitives of the `lsl` correlator fragment:
the strided BLAS-replacement kernels (`blas_scal`, `blas_dotc_sub`),
the window/sinc kernels (`sinc`, `hanning`, `hamming`), the complex
magnitude-squared (`abs2`), and the FFTW wisdom loader (`read_wisdom`).

Memory is modelled as a total function `ℤ → R` from element offsets
(relative to the base pointer) to stored values; the C++ `int` counts and
strides are modelled as `ℤ`, with a loop `for(int i=0;i<N;i++)` running
`N.toNat` times (zero times for `N ≤ 0`).  Floating-point values are
modelled by the reals and `std::complex` by `ℂ`; the templates are
modelled generically over a commutative star-ring, mirroring the C++
templates over the element type.
-/

namespace LSL

/-- Embedding of `blas_dotc_sub` from `src/lsl/correlator/blas.h`:

    OType accum = 0.0;
    for(int i=0; i<N; i++) {
        accum += conj(*X) * *Y;
        X += incX;
        Y += incY;
    }
    *dotc = accum;

After `i` increments the `X` pointer sits at offset `i * incX` from its
base (likewise for `Y`), so iteration `i` reads `X (i*incX)` and
`Y (i*incY)`.  The returned value is the one written through `dotc`. -/
def blas_dotc_sub {R : Type} [CommRing R] [StarRing R]
    (N : ℤ) (X : ℤ → R) (incX : ℤ) (Y : ℤ → R) (incY : ℤ) : R :=
  (List.range N.toNat).foldl
    (fun accum (i : ℕ) => accum + star (X ((i : ℤ) * incX)) * Y ((i : ℤ) * incY)) 0

/-- One pass of the `blas_scal` loop body over the first `n` iterations:

    for(int i=0; i<N; i++) {
        *X *= alpha;
        X += incX;
    }

Iteration `i` multiplies the element at offset `i * incX` in place. -/
def scalLoop {R : Type} [CommRing R]
    (n : ℕ) (alpha : R) (X : ℤ → R) (incX : ℤ) : ℤ → R :=
  (List.range n).foldl
    (fun mem (i : ℕ) =>
      Function.update mem ((i : ℤ) * incX) (mem ((i : ℤ) * incX) * alpha)) X

/-- Embedding of `blas_scal` from `src/lsl/correlator/blas.h`: the final
memory state after the in-place strided scaling loop. -/
def blas_scal {R : Type} [CommRing R]
    (N : ℤ) (alpha : R) (X : ℤ → R) (incX : ℤ) : ℤ → R :=
  scalLoop N.toNat alpha X incX

/- Helper lemmas about the folds. -/

lemma foldl_range_add {M : Type} [AddCommMonoid M] (f : ℕ → M) :
    ∀ (n : ℕ) (init : M),
      (List.range n).foldl (fun acc i => acc + f i) init
        = init + ∑ i ∈ Finset.range n, f i := by
  intro n
  induction n with
  | zero => intro init; simp
  | succ n ih =>
      intro init
      rw [List.range_succ, List.foldl_append, ih, Finset.sum_range_succ]
      simp [add_assoc]

lemma blas_dotc_sub_eq_sum {R : Type} [CommRing R] [StarRing R]
    (N : ℤ) (X : ℤ → R) (incX : ℤ) (Y : ℤ → R) (incY : ℤ) :
    blas_dotc_sub N X incX Y incY
      = ∑ i ∈ Finset.range N.toNat, star (X ((i : ℤ) * incX)) * Y ((i : ℤ) * incY) := by
  rw [blas_dotc_sub, foldl_range_add, zero_add]

lemma scalLoop_succ {R : Type} [CommRing R]
    (n : ℕ) (alpha : R) (X : ℤ → R) (incX : ℤ) :
    scalLoop (n + 1) alpha X incX
      = Function.update (scalLoop n alpha X incX) ((n : ℤ) * incX)
          (scalLoop n alpha X incX ((n : ℤ) * incX) * alpha) := by
  rw [scalLoop, List.range_succ, List.foldl_append]
  rfl

/-- Offsets not addressed by any of the first `n` iterations are untouched. -/
lemma scalLoop_untouched {R : Type} [CommRing R]
    (n : ℕ) (alpha : R) (X : ℤ → R) (incX : ℤ) (j : ℤ)
    (hj : ∀ i : ℕ, i < n → j ≠ (i : ℤ) * incX) :
    scalLoop n alpha X incX j = X j := by
  induction n with
  | zero => rfl
  | succ n ih =>
      rw [scalLoop_succ, Function.update_apply]
      rw [if_neg (hj n (Nat.lt_succ_self n))]
      exact ih fun i hi => hj i (Nat.lt_succ_of_lt hi)

/-- With a nonzero stride, each addressed offset is multiplied by `alpha`
exactly once. -/
lemma scalLoop_touched {R : Type} [CommRing R]
    (n : ℕ) (alpha : R) (X : ℤ → R) (incX : ℤ) (hinc : incX ≠ 0)
    (i : ℕ) (hi : i < n) :
    scalLoop n alpha X incX ((i : ℤ) * incX) = X ((i : ℤ) * incX) * alpha := by
  induction n with
  | zero => exact absurd hi (Nat.not_lt_zero i)
  | succ n ih =>
      rw [scalLoop_succ, Function.update_apply]
      rcases Nat.lt_succ_iff_lt_or_eq.mp hi with h | h
      · rw [if_neg, ih h]
        intro hc
        exact absurd (Nat.cast_injective (mul_right_cancel₀ hinc hc)) (Nat.ne_of_lt h)
      · subst h
        rw [if_pos rfl, scalLoop_untouched]
        intro k hk hc
        exact absurd (Nat.cast_injective (mul_right_cancel₀ hinc hc)).symm
          (Nat.ne_of_lt hk)

/-!
Window kernels and complex power from `src/unnamed/part_000`.  The source
offers each function at two floating precisions (a `double` and a `float`
overload) with the same formula; the narrow-precision overloads are
modelled by their own definitions (suffix `32`) over the reals.
`NPY_PI` is modelled by `Real.pi`.
-/

/-- Embedding of `double sinc(double x)`:
`if (x == 0.0) return 1.0; else return sin(x*NPY_PI)/(x*NPY_PI);` -/
noncomputable def sinc (x : ℝ) : ℝ :=
  if x = 0 then 1 else Real.sin (x * Real.pi) / (x * Real.pi)

/-- Embedding of the `float sinc(float x)` overload (same formula). -/
noncomputable def sinc32 (x : ℝ) : ℝ :=
  if x = 0 then 1 else Real.sin (x * Real.pi) / (x * Real.pi)

/-- Embedding of `double hanning(double x)`: `return 0.5 - 0.5*cos(x);` -/
noncomputable def hanning (x : ℝ) : ℝ := 0.5 - 0.5 * Real.cos x

/-- Embedding of the `float hanning(float x)` overload (same formula). -/
noncomputable def hanning32 (x : ℝ) : ℝ := 0.5 - 0.5 * Real.cos x

/-- Embedding of `double hamming(double x)`: `return 0.54 - 0.46*cos(x);` -/
noncomputable def hamming (x : ℝ) : ℝ := 0.54 - 0.46 * Real.cos x

/-- Embedding of the `float hamming(float x)` overload (same formula). -/
noncomputable def hamming32 (x : ℝ) : ℝ := 0.54 - 0.46 * Real.cos x

/-- Embedding of `double abs2(Complex64 z)`:
`return z.real()*z.real() + z.imag()*z.imag();` -/
def abs2 (z : ℂ) : ℝ := z.re * z.re + z.im * z.im

/-- Embedding of the `float abs2(Complex32 z)` overload (same formula). -/
def abs2_32 (z : ℂ) : ℝ := z.re * z.re + z.im * z.im

/-!
The FFTW wisdom loader `read_wisdom` from `src/unnamed/part_000`.  The
external world is abstracted: `openRes` is the outcome of
`fopen(filename, "r")` (`none` when it returns `NULL`), and `imp f`
is the success of `fftwf_import_wisdom_from_file(f)` on the opened file
(`PyBool_FromLong` maps the nonzero/zero status to true/false).  The
observable effects — the import call, the `fclose` call, and the
`PyModule_AddObject(m, "useWisdom", ...)` publication — are recorded
explicitly.
-/

/-- Observable effects of the wisdom loader on its environment. -/
structure WisdomEffects (F : Type) where
  /-- the file handle passed to the wisdom-import routine, if any -/
  imported : Option F
  /-- the file handle passed to `fclose`, if any -/
  closed : Option F
  /-- name and value passed to `PyModule_AddObject` via `PyBool_FromLong` -/
  published : String × Bool
  deriving DecidableEq

/-- Embedding of `read_wisdom`:

    int status = 0;
    wisdomfile = fopen(filename, "r");
    if( wisdomfile != NULL ) {
        status = fftwf_import_wisdom_from_file(wisdomfile);
        fclose(wisdomfile);
    }
    PyModule_AddObject(m, "useWisdom", PyBool_FromLong(status));
-/
def read_wisdom {F : Type} (openRes : Option F) (imp : F → Bool) :
    WisdomEffects F :=
  let status := false
  match openRes with
  | none => ⟨none, none, ("useWisdom", status)⟩
  | some wisdomfile =>
      ⟨some wisdomfile, some wisdomfile, ("useWisdom", imp wisdomfile)⟩

/-!
Claim theorems.
-/

/-- C1: for every `N ≥ 0`, element type, and strides `incX`, `incY`,
`blas_dotc_sub` writes to `out` the sum over `i = 0..N-1` of
`conj(X[i*incX]) * Y[i*incY]` (the fold of the single running accumulator
started at zero over increasing `i` equals that sum); `N = 0` writes the
additive identity, and for real element types `conj` is the identity, so
the result is the plain strided inner product. -/
theorem blas_dotc_sub_spec {R : Type} [CommRing R] [StarRing R]
    (N : ℤ) (_hN : 0 ≤ N) (X Y : ℤ → R) (incX incY : ℤ) (Xr Yr : ℤ → ℝ) :
    blas_dotc_sub N X incX Y incY
      = ∑ i ∈ Finset.range N.toNat, star (X ((i : ℤ) * incX)) * Y ((i : ℤ) * incY)
    ∧ blas_dotc_sub (R := R) 0 X incX Y incY = 0
    ∧ blas_dotc_sub N Xr incX Yr incY
      = ∑ i ∈ Finset.range N.toNat, Xr ((i : ℤ) * incX) * Yr ((i : ℤ) * incY) := by
  refine ⟨blas_dotc_sub_eq_sum N X incX Y incY, rfl, ?_⟩
  rw [blas_dotc_sub_eq_sum]
  simp [star_trivial]

/-- Witness for C1 at `N = 2`, `X j = j + 2`, `Y j = 2j + 1`, `incX = 1`,
`incY = 2` over `ℤ`: the result is `star 2 * 1 + star 3 * 5 = 17`. -/
theorem blas_dotc_sub_spec_witness :
    (0 : ℤ) ≤ 2
    ∧ blas_dotc_sub (R := ℤ) 2 (fun j => j + 2) 1 (fun j => 2 * j + 1) 2 = 17 := by
  refine ⟨by decide, ?_⟩
  rw [(blas_dotc_sub_spec (R := ℤ) 2 (by decide) (fun j => j + 2)
    (fun j => 2 * j + 1) 1 2 (fun _ => 0) (fun _ => 0)).1]
  decide

/-- C10: both kernels treat a negative count exactly like `N = 0`:
`blas_dotc_sub` writes the additive identity regardless of the contents
of `X` and `Y`, and `blas_scal` leaves the memory unchanged. -/
theorem negative_count_spec {R : Type} [CommRing R] [StarRing R]
    (N : ℤ) (hN : N ≤ 0) (X Y : ℤ → R) (incX incY : ℤ) (alpha : R) (W : ℤ → R) :
    blas_dotc_sub N X incX Y incY = 0 ∧ blas_scal N alpha W incX = W := by
  have h : N.toNat = 0 := Int.toNat_of_nonpos hN
  exact ⟨by rw [blas_dotc_sub, h]; rfl, by rw [blas_scal, h]; rfl⟩

/-- Witness for C10 at `N = -1`: the dot product over nonzero memories is
`0` and the scale leaves the memory intact. -/
theorem negative_count_spec_witness :
    (-1 : ℤ) ≤ 0
    ∧ blas_dotc_sub (R := ℤ) (-1) (fun _ => 5) 1 (fun _ => 7) 1 = 0
    ∧ blas_scal (R := ℤ) (-1) 3 (fun j => j) 1 = (fun j : ℤ => j) := by
  have h := negative_count_spec (R := ℤ) (-1) (by decide)
    (fun _ => 5) (fun _ => 7) 1 1 3 (fun j => j)
  exact ⟨by decide, h.1, h.2⟩

/-- C5: with a nonzero stride, `blas_scal` multiplies in place each of the
`N` elements at offsets `i*incX` (`i` in `0..N-1`) by `alpha`, leaves
every other offset unchanged, and `N = 0` is a no-op on all memory. -/
theorem blas_scal_spec {R : Type} [CommRing R]
    (N : ℤ) (alpha : R) (X : ℤ → R) (incX : ℤ) (hinc : incX ≠ 0) :
    (∀ i : ℕ, i < N.toNat →
        blas_scal N alpha X incX ((i : ℤ) * incX) = X ((i : ℤ) * incX) * alpha)
    ∧ (∀ j : ℤ, (∀ i : ℕ, i < N.toNat → j ≠ (i : ℤ) * incX) →
        blas_scal N alpha X incX j = X j)
    ∧ blas_scal 0 alpha X incX = X := by
  exact ⟨fun i hi => scalLoop_touched N.toNat alpha X incX hinc i hi,
    fun j hj => scalLoop_untouched N.toNat alpha X incX j hj, rfl⟩

/-- Witness for C5 at `N = 2`, `alpha = 3`, `X j = j`, `incX = 2` over
`ℤ`: offset `1*2 = 2` becomes `2 * 3 = 6`, while the unaddressed offset
`1` keeps its old value `1`. -/
theorem blas_scal_spec_witness :
    (2 : ℤ) ≠ 0
    ∧ blas_scal (R := ℤ) 2 3 (fun j => j) 2 (((1 : ℕ) : ℤ) * 2) = 6
    ∧ blas_scal (R := ℤ) 2 3 (fun j => j) 2 1 = 1 := by
  have h := blas_scal_spec (R := ℤ) 2 3 (fun j => j) 2 (by decide)
  refine ⟨by decide, ?_, ?_⟩
  · rw [h.1 1 (by decide)]; decide
  · rw [h.2.1 1 (by decide)]

/-- C2: on `X = [1+2i, 3-1i]`, `Y = [2+0i, 0+1i]` with `N = 2` and unit
strides, `blas_dotc_sub` writes exactly `1 - i`. -/
theorem dotc_scenario :
    blas_dotc_sub 2
      (fun j : ℤ => if j = 0 then 1 + 2 * Complex.I
        else if j = 1 then 3 - Complex.I else 0) 1
      (fun j : ℤ => if j = 0 then 2 else if j = 1 then Complex.I else 0) 1
      = 1 - Complex.I := by
  rw [blas_dotc_sub_eq_sum]
  have h2 : (2 : ℤ).toNat = 2 := rfl
  rw [h2, Finset.sum_range_succ, Finset.sum_range_succ, Finset.sum_range_zero]
  norm_num
  simp only [Complex.ext_iff, map_add, map_sub, map_mul, map_one, map_ofNat,
    Complex.conj_I, Complex.add_re, Complex.add_im, Complex.mul_re, Complex.mul_im,
    Complex.sub_re, Complex.sub_im, Complex.I_re, Complex.I_im, Complex.one_re,
    Complex.one_im, Complex.re_ofNat, Complex.im_ofNat, Complex.zero_re,
    Complex.zero_im]
  norm_num

/-- C3: the self conjugate dot product with unit stride equals the sum of
`abs2` over the first `N` elements; the result is real (its imaginary
part is zero) and its real part is non-negative. -/
theorem dotc_self (N : ℤ) (_hN : 0 ≤ N) (X : ℤ → ℂ) :
    blas_dotc_sub N X 1 X 1 = ((∑ i ∈ Finset.range N.toNat, abs2 (X i) : ℝ) : ℂ)
    ∧ (blas_dotc_sub N X 1 X 1).im = 0
    ∧ 0 ≤ (blas_dotc_sub N X 1 X 1).re := by
  have key : blas_dotc_sub N X 1 X 1
      = ((∑ i ∈ Finset.range N.toNat, abs2 (X i) : ℝ) : ℂ) := by
    rw [blas_dotc_sub_eq_sum]
    push_cast
    refine Finset.sum_congr rfl fun i _ => ?_
    rw [mul_one, Complex.star_def, Complex.ext_iff]
    refine ⟨?_, ?_⟩
    · simp [Complex.mul_re, abs2]
    · simp [Complex.mul_im]
      ring
  refine ⟨key, by rw [key]; simp, by
    rw [key, Complex.ofReal_re]
    exact Finset.sum_nonneg fun i _ => add_nonneg (mul_self_nonneg _) (mul_self_nonneg _)⟩

/-- Witness for C3 at `N = 1`, `X = [i]`: the self dot product is the
real number `1 = abs2 i`. -/
theorem dotc_self_witness :
    (0 : ℤ) ≤ 1
    ∧ blas_dotc_sub 1 (fun _ : ℤ => Complex.I) 1 (fun _ : ℤ => Complex.I) 1
        = ((1 : ℝ) : ℂ) := by
  have h := (dotc_self 1 (by decide) (fun _ => Complex.I)).1
  refine ⟨by decide, ?_⟩
  rw [h]
  norm_num [abs2]

/-- C4: reversed traversal (`incX = incY = -1`, base pointer at the last
element, offset `N-1`) gives the same result as the forward-traversal
call on the reversed input sequences: the stride sign changes only the
visiting order, not which `(X, Y)` pairs are multiplied. -/
theorem dotc_reversed {R : Type} [CommRing R] [StarRing R]
    (N : ℤ) (_hN : 0 ≤ N) (X Y : ℤ → R) :
    blas_dotc_sub N (fun j => X (N - 1 + j)) (-1) (fun j => Y (N - 1 + j)) (-1)
      = blas_dotc_sub N (fun j => X (N - 1 - j)) 1 (fun j => Y (N - 1 - j)) 1 := by
  rw [blas_dotc_sub_eq_sum, blas_dotc_sub_eq_sum]
  refine Finset.sum_congr rfl fun i _ => ?_
  have h1 : N - 1 + (i : ℤ) * (-1) = N - 1 - (i : ℤ) * 1 := by ring
  rw [h1]

/-- Witness for C4 at `N = 2`, `X j = j`, `Y j = j^2` over `ℤ`: both
traversals produce `1`. -/
theorem dotc_reversed_witness :
    (0 : ℤ) ≤ 2
    ∧ blas_dotc_sub (R := ℤ) 2 (fun j => 2 - 1 + j) (-1)
        (fun j => (2 - 1 + j) ^ 2) (-1)
      = blas_dotc_sub (R := ℤ) 2 (fun j => 2 - 1 - j) 1
        (fun j => (2 - 1 - j) ^ 2) 1
    ∧ blas_dotc_sub (R := ℤ) 2 (fun j => 2 - 1 + j) (-1)
        (fun j => (2 - 1 + j) ^ 2) (-1) = 1 := by
  refine ⟨by decide, ?_, by decide⟩
  exact dotc_reversed (R := ℤ) 2 (by decide) (fun j => j) (fun j => j ^ 2)

/-- C6: at both precisions, `sinc` returns exactly `1` at `x = 0` and
`sin(π·x)/(π·x)` for nonzero `x`; both overloads use the same `π`
constant, so they agree everywhere. -/
theorem sinc_spec (x : ℝ) (hx : x ≠ 0) :
    sinc 0 = 1 ∧ sinc32 0 = 1
    ∧ sinc x = Real.sin (Real.pi * x) / (Real.pi * x)
    ∧ sinc32 x = Real.sin (Real.pi * x) / (Real.pi * x)
    ∧ sinc x = sinc32 x := by
  refine ⟨by rw [sinc, if_pos rfl], by rw [sinc32, if_pos rfl], ?_, ?_, rfl⟩
  · rw [sinc, if_neg hx, mul_comm]
  · rw [sinc32, if_neg hx, mul_comm]

/-- Witness for C6 at `x = 1`: `sinc 1 = sin(π)/(π) = 0`. -/
theorem sinc_spec_witness : (1 : ℝ) ≠ 0 ∧ sinc 1 = 0 := by
  refine ⟨one_ne_zero, ?_⟩
  rw [(sinc_spec 1 one_ne_zero).2.2.1]
  simp [Real.sin_pi]

/-- C7: at both precisions `abs2 z` is `re(z)² + im(z)²` (the direct sum
of squares, with no square-root step), `abs2 0 = 0`, and `abs2` is never
negative. -/
theorem abs2_spec (z : ℂ) :
    abs2 z = z.re ^ 2 + z.im ^ 2
    ∧ abs2_32 z = z.re ^ 2 + z.im ^ 2
    ∧ abs2 0 = 0 ∧ abs2_32 0 = 0
    ∧ 0 ≤ abs2 z ∧ 0 ≤ abs2_32 z := by
  refine ⟨by rw [abs2]; ring, by rw [abs2_32]; ring, by simp [abs2],
    by simp [abs2_32], ?_, ?_⟩
  · exact add_nonneg (mul_self_nonneg _) (mul_self_nonneg _)
  · exact add_nonneg (mul_self_nonneg _) (mul_self_nonneg _)

/-- C8: at both precisions `hanning x = 0.5 - 0.5·cos x` and
`hamming x = 0.54 - 0.46·cos x`, so `hanning 0 = 0`, `hanning π = 1`,
`hamming 0 = 0.08`, and `hamming π = 1`. -/
theorem window_spec (x : ℝ) :
    hanning x = 0.5 - 0.5 * Real.cos x
    ∧ hanning32 x = 0.5 - 0.5 * Real.cos x
    ∧ hamming x = 0.54 - 0.46 * Real.cos x
    ∧ hamming32 x = 0.54 - 0.46 * Real.cos x
    ∧ hanning 0 = 0 ∧ hanning Real.pi = 1
    ∧ hamming 0 = 0.08 ∧ hamming Real.pi = 1
    ∧ hanning32 0 = 0 ∧ hanning32 Real.pi = 1
    ∧ hamming32 0 = 0.08 ∧ hamming32 Real.pi = 1 := by
  refine ⟨rfl, rfl, rfl, rfl, ?_, ?_, ?_, ?_, ?_, ?_, ?_, ?_⟩
  · rw [hanning, Real.cos_zero]; norm_num
  · rw [hanning, Real.cos_pi]; norm_num
  · rw [hamming, Real.cos_zero]; norm_num
  · rw [hamming, Real.cos_pi]; norm_num
  · rw [hanning32, Real.cos_zero]; norm_num
  · rw [hanning32, Real.cos_pi]; norm_num
  · rw [hamming32, Real.cos_zero]; norm_num
  · rw [hamming32, Real.cos_pi]; norm_num

/-- C9: when the wisdom file fails to open, `read_wisdom` publishes the
flag `false` under `"useWisdom"` and performs no import and no close;
when the open succeeds, it passes the file to the wisdom-import routine,
closes that same file unconditionally (whatever the import returned), and
publishes the import routine's success indicator under `"useWisdom"`. -/
theorem read_wisdom_spec {F : Type} (imp : F → Bool) (f : F) :
    ((read_wisdom (F := F) none imp).published = ("useWisdom", false)
      ∧ (read_wisdom (F := F) none imp).imported = none
      ∧ (read_wisdom (F := F) none imp).closed = none)
    ∧ ((read_wisdom (some f) imp).imported = some f
      ∧ (read_wisdom (some f) imp).closed = some f
      ∧ (read_wisdom (some f) imp).published = ("useWisdom", imp f)) :=
  ⟨⟨rfl, rfl, rfl⟩, ⟨rfl, rfl, rfl⟩⟩

end LSL
